import Mathlib

/-!
Shallow embedding of the delivery core of `yorin-node` (an event-tracking
client): the backoff retrier and array chunker from `src/utils.ts`, and the
batching/flush/transport logic of `YorinClient` from `src/core/client.ts`.

Events are opaque values of a type parameter `α`; the outcome of the (retried)
network call made by `sendBatchInternal` is supplied by an oracle
`tr : List α → Except ε Unit`, and the single-attempt HTTP interpretation is
modelled separately (`sendAttempt`).  JavaScript `throw` of a possibly
`undefined` value is modelled with `Option`: `none` is `undefined`.
-/

namespace Yorin

/-! ### `retryWithBackoff` (src/utils.ts, lines 25-45)

The loop `for (let i = 0; i < maxRetries; i++)` is modelled by recursion on
the loop counter `i`.  The trace records the returned-or-thrown outcome, how
many times `fn` was invoked, and the sequence of sleep durations requested.
A thrown value of type `Option E` models JavaScript's `any`: `none` stands
for the `undefined` that `let lastError: any;` starts out as. -/

structure RetryTrace (E A : Type) where
  result : Except (Option E) A
  calls : Nat
  delays : List Nat

/-- One step of the `for` loop of `retryWithBackoff`: attempt `fn i`; on
success return at once; on failure record the error and, if attempts remain
(`i < maxRetries - 1`), request a delay of `initialDelay * 2 ^ i`. -/
def retryAux (fn : Nat → Except E A) (maxRetries initialDelay : Nat)
    (i : Nat) (lastError : Option E) : RetryTrace E A :=
  if _h : i < maxRetries then
    match fn i with
    | .ok a => ⟨.ok a, 1, []⟩
    | .error e =>
        let ds : List Nat :=
          if i < maxRetries - 1 then [initialDelay * 2 ^ i] else []
        let t := retryAux fn maxRetries initialDelay (i + 1) (some e)
        ⟨t.result, t.calls + 1, ds ++ t.delays⟩
  else
    ⟨.error lastError, 0, []⟩
termination_by maxRetries - i

/-- Function `retryWithBackoff` of `src/utils.ts`: `lastError` starts uninitialised
(`undefined`, modelled `none`). -/
def retryWithBackoff (fn : Nat → Except E A) (maxRetries initialDelay : Nat) :
    RetryTrace E A :=
  retryAux fn maxRetries initialDelay 0 none

/-- The variant of `retryWithBackoff` found in the repository's second copy of
the utils module (src/unnamed/part_002, lines 28-50): identical loop, but
`lastError` starts as `Error('All retry attempts failed')`. -/
def retryWithBackoffInit (fn : Nat → Except String A)
    (maxRetries initialDelay : Nat) : RetryTrace String A :=
  retryAux fn maxRetries initialDelay 0 (some ("All retry attempts failed"))

/-! ### `chunkArray` (src/utils.ts, lines 54-60)

`chunkArray` is a `for (let i = 0; i < array.length; i += size)` loop pushing
`array.slice(i, i + size)`.  Because the loop need not terminate when
`size ≤ 0`, the faithful embedding `chunkLoopF` is fuel-indexed and returns
`none` when the fuel is exhausted while the loop guard still holds.  `size`
is an `Int`, as a JavaScript number can be negative. -/

/-- ECMAScript `Array.prototype.slice(start, stop)`: negative indices count
from the end, both indices clamp to `[0, length]`, and the result is the
elements from the resolved start (inclusive) to the resolved stop
(exclusive). -/
def jsSlice (arr : List α) (start stop : Int) : List α :=
  let len : Int := arr.length
  let s := if start < 0 then max (len + start) 0 else min start len
  let e := if stop < 0 then max (len + stop) 0 else min stop len
  (arr.take e.toNat).drop s.toNat

/-- The loop of `chunkArray`, fuel-indexed: guard `i < array.length`, body
pushes `array.slice(i, i + size)` and advances `i` by `size`. -/
def chunkLoopF (arr : List α) (size : Int) :
    Nat → Int → List (List α) → Option (List (List α))
  | fuel, i, acc =>
    if i < (arr.length : Int) then
      match fuel with
      | 0 => none
      | fuel + 1 =>
          chunkLoopF arr size fuel (i + size) (acc ++ [jsSlice arr i (i + size)])
    else
      some acc

/-- Run of `chunkArray array size` with the given fuel, starting from `i = 0`
with an empty `chunks` accumulator. -/
def chunkArrayF (arr : List α) (size : Int) (fuel : Nat) :
    Option (List (List α)) :=
  chunkLoopF arr size fuel 0 []

/-- Total description of `chunkArray` for positive `size`: repeatedly take
`size` elements.  Used to state what the fuelled loop computes when it
terminates (`chunkLoopF_pos_eq`). -/
def chunksOf (size : Nat) (l : List α) : List (List α) :=
  if l.isEmpty || size == 0 then []
  else l.take size :: chunksOf size (l.drop size)
termination_by l.length
decreasing_by
  rename_i h
  simp only [Bool.or_eq_true, List.isEmpty_iff, beq_iff_eq, not_or] at h
  have : 0 < l.length := List.length_pos.mpr h.1
  simp only [List.length_drop]
  omega

/-! ### Transport attempt (src/core/client.ts, lines 105-127)

One iteration of the function handed to `retryWithBackoff` by
`sendBatchInternal`: interpret the HTTP response.  The response is modelled
as its status, its body text, and the parsed `YorinResponse` body. -/

structure YorinResponse where
  success : Bool
  message : Option String
deriving DecidableEq

structure HttpResponse where
  status : Nat
  bodyText : String
  json : YorinResponse
deriving DecidableEq

/-- Predicate `response.ok` of the Fetch standard: status in the range 200-299. -/
def responseOk (status : Nat) : Bool :=
  decide (200 ≤ status) && decide (status ≤ 299)

/-- JavaScript `m || d` on an optional string: `undefined` and `""` are both
falsy, so either yields the default. -/
def jsOrString (m : Option String) (d : String) : String :=
  match m with
  | none => d
  | some s => if s = "" then d else s

/-- One transport attempt: non-2xx throws
`Error('HTTP ${status}: ${errorText}')`; a 2xx body with `success` false
throws `Error(result.message || "Failed to send events")`; otherwise the
attempt succeeds. -/
def sendAttempt (r : HttpResponse) : Except String Unit :=
  if !responseOk r.status then
    .error ("HTTP " ++ toString r.status ++ ": " ++ r.bodyText)
  else if !r.json.success then
    .error (jsOrString r.json.message ("Failed to send events"))
  else
    .ok ()

/-! ### The client (src/core/client.ts)

State: the `eventBatch` queue and the `flushTimer` handle (modelled as a
`Bool`: timer active or not), together with an observation log of the batches
handed to the transport (`submissions`, one entry per `sendBatchInternal`
call) and of the errors passed to `logger.error` (`loggedErrors`).
Each operation returns the new state paired with `Option ε`: `some e` when
the promise rejects with `e`, `none` when it resolves. -/

structure ClientConfig where
  secretKey : String
  apiUrl : String
  debug : Bool
  batchSize : Nat
  flushInterval : Nat
  enableBatching : Bool
  retryAttempts : Nat
  retryDelay : Nat
deriving DecidableEq

structure ClientState (α ε : Type) where
  eventBatch : List α
  flushTimer : Bool
  submissions : List (List α)
  loggedErrors : List ε
deriving DecidableEq

/-- The payload computed by `sendBatchInternal` (line 102):
`events.length === 1 ? events[0] : events` — a single JSON object for a
one-element batch, a JSON array otherwise. -/
inductive Payload (α : Type) where
  | single : α → Payload α
  | array : List α → Payload α
deriving DecidableEq

def payloadOf : List α → Payload α
  | [e] => .single e
  | es => .array es

/-- Model of `sendBatchInternal` (lines 100-135): records the batch handed to the
transport, then either resolves, or logs the error and re-throws it.  The
retried network call's outcome is the oracle `tr`. -/
def sendBatchInternal (tr : List α → Except ε Unit) (s : ClientState α ε)
    (events : List α) : ClientState α ε × Option ε :=
  let s1 := { s with submissions := s.submissions ++ [events] }
  match tr events with
  | .ok _ => (s1, none)
  | .error e => ({ s1 with loggedErrors := s1.loggedErrors ++ [e] }, some e)

/-- Lines 94-95 of `flushBatch`: `const events = [...this.eventBatch];
this.eventBatch = [];` — capture the queue and clear it, synchronously,
before any network work. -/
def drain (s : ClientState α ε) : List α × ClientState α ε :=
  (s.eventBatch, { s with eventBatch := [] })

/-- Model of `flushBatch` (lines 89-98): empty queue is a no-op; otherwise drain and
hand the snapshot to `sendBatchInternal`. -/
def flushBatch (tr : List α → Except ε Unit) (s : ClientState α ε) :
    ClientState α ε × Option ε :=
  if s.eventBatch.length = 0 then (s, none)
  else
    let p := drain s
    sendBatchInternal tr p.2 p.1

/-- Model of `flush` (lines 60-64). -/
def flush (tr : List α → Except ε Unit) (s : ClientState α ε) :
    ClientState α ε × Option ε :=
  if 0 < s.eventBatch.length then flushBatch tr s else (s, none)

/-- Model of `queueOrSendEvent` (lines 76-87): with batching disabled, send `[event]`
immediately; otherwise push onto the queue and flush once the queue length
reaches `batchSize`. -/
def queueOrSendEvent (cfg : ClientConfig) (tr : List α → Except ε Unit)
    (s : ClientState α ε) (ev : α) : ClientState α ε × Option ε :=
  if !cfg.enableBatching then
    sendBatchInternal tr s [ev]
  else
    let s1 := { s with eventBatch := s.eventBatch ++ [ev] }
    if cfg.batchSize ≤ s1.eventBatch.length then flushBatch tr s1
    else (s1, none)

/-- A sequence of `sendEvent` calls issued one after the other (each awaited
by its own caller; a rejection of one call does not stop the caller from
issuing the next). -/
def sendAll (cfg : ClientConfig) (tr : List α → Except ε Unit)
    (s : ClientState α ε) (events : List α) : ClientState α ε :=
  events.foldl (fun st ev => (queueOrSendEvent cfg tr st ev).1) s

/-- The `for (const chunk of chunks)` loop of `sendBatch` (lines 51-53):
submit chunks in order; an awaited rejection aborts the loop and propagates. -/
def sendChunks (tr : List α → Except ε Unit) :
    ClientState α ε → List (List α) → ClientState α ε × Option ε
  | s, [] => (s, none)
  | s, c :: cs =>
      match sendBatchInternal tr s c with
      | (s1, none) => sendChunks tr s1 cs
      | (s1, some e) => (s1, some e)

/-- Model of `sendBatch` (lines 42-58): empty input is a warned no-op; more than 1000
events are split with `chunkArray(events, 1000)` and submitted sequentially;
otherwise one direct submission.  (`chunksOf 1000` is what
`chunkArray events 1000` computes: `chunkLoopF_pos_eq`.) -/
def sendBatch (tr : List α → Except ε Unit) (s : ClientState α ε)
    (events : List α) : ClientState α ε × Option ε :=
  if events.length = 0 then (s, none)
  else if 1000 < events.length then sendChunks tr s (chunksOf 1000 events)
  else sendBatchInternal tr s events

/-- Model of `destroy` (lines 66-74): clear the interval if one is active, then run a
final `flush` whose rejection is caught and logged — `destroy` itself never
rejects, so its error component is always `none`. -/
def destroy (tr : List α → Except ε Unit) (s : ClientState α ε) :
    ClientState α ε × Option ε :=
  let s1 := if s.flushTimer then { s with flushTimer := false } else s
  match flush tr s1 with
  | (s2, none) => (s2, none)
  | (s2, some e) => ({ s2 with loggedErrors := s2.loggedErrors ++ [e] }, none)

/-- The state of a freshly constructed client (constructor, lines 23-35, with
`startBatchTimer`, lines 137-150: the timer is started iff batching is
enabled). -/
def initState (cfg : ClientConfig) : ClientState α ε :=
  ⟨[], cfg.enableBatching, [], []⟩

/-! ### Lemmas on the retrier -/

theorem retryAux_stop {fn : Nat → Except E A} {mr d i : Nat} {le : Option E}
    (h : ¬ i < mr) : retryAux fn mr d i le = ⟨.error le, 0, []⟩ := by
  rw [retryAux]
  simp [h]

theorem retryAux_ok {fn : Nat → Except E A} {mr d i : Nat} {le : Option E}
    {a : A} (h : i < mr) (hfn : fn i = .ok a) :
    retryAux fn mr d i le = ⟨.ok a, 1, []⟩ := by
  rw [retryAux]
  simp [h, hfn]

theorem retryAux_err {fn : Nat → Except E A} {mr d i : Nat} {le : Option E}
    {e : E} (h : i < mr) (hfn : fn i = .error e) :
    retryAux fn mr d i le =
      ⟨(retryAux fn mr d (i + 1) (some e)).result,
       (retryAux fn mr d (i + 1) (some e)).calls + 1,
       (if i < mr - 1 then [d * 2 ^ i] else []) ++
         (retryAux fn mr d (i + 1) (some e)).delays⟩ := by
  rw [retryAux]
  simp [h, hfn]

/-- If the loop is entered at all, `fn` is invoked at least once. -/
theorem retryAux_calls_pos {fn : Nat → Except E A} {mr d i : Nat}
    {le : Option E} (h : i < mr) : 1 ≤ (retryAux fn mr d i le).calls := by
  rcases hfn : fn i with a | e
  · rw [retryAux_err h hfn]
    simp
  · rw [retryAux_ok h hfn]

/-- Running from position `i` with `t` failing attempts followed by a success
at attempt `i + t`. -/
theorem retryAux_first_ok (fn : Nat → Except E A) (mr d : Nat) :
    ∀ (t i : Nat) (le : Option E) (a : A), i + t < mr → fn (i + t) = .ok a →
      (∀ m, i ≤ m → m < i + t → ∃ e, fn m = .error e) →
      retryAux fn mr d i le =
        ⟨.ok a, t + 1, (List.range' i t).map fun j => d * 2 ^ j⟩ := by
  intro t
  induction t with
  | zero =>
      intro i le a hlt hok _
      simpa using retryAux_ok hlt (by simpa using hok)
  | succ t ih =>
      intro i le a hlt hok hfail
      obtain ⟨e, he⟩ := hfail i (by omega) (by omega)
      rw [retryAux_err (by omega) he]
      rw [ih (i + 1) (some e) a (by omega) (by rw [show i + 1 + t = i + (t + 1) by omega]; exact hok)
        (fun m h1 h2 => hfail m (by omega) (by omega))]
      have hds : i < mr - 1 := by omega
      simp only [if_pos hds, List.range'_succ, List.map_cons]
      rfl

/-- Running from position `i` with every remaining attempt failing
(`i + t + 1 = mr`). -/
theorem retryAux_all_err (fn : Nat → Except E A) (mr d : Nat) (e : Nat → E) :
    ∀ (t i : Nat) (le : Option E), i + t + 1 = mr →
      (∀ m, i ≤ m → m < mr → fn m = .error (e m)) →
      retryAux fn mr d i le =
        ⟨.error (some (e (mr - 1))), t + 1,
         (List.range' i t).map fun j => d * 2 ^ j⟩ := by
  intro t
  induction t with
  | zero =>
      intro i le hmr hfail
      rw [retryAux_err (by omega) (hfail i (by omega) (by omega))]
      rw [retryAux_stop (by omega)]
      have : ¬ i < mr - 1 := by omega
      simp only [if_neg this, List.nil_append, List.range'_zero, List.map_nil]
      have : mr - 1 = i := by omega
      rw [this]
  | succ t ih =>
      intro i le hmr hfail
      rw [retryAux_err (by omega) (hfail i (by omega) (by omega))]
      rw [ih (i + 1) (some (e i)) (by omega)
        (fun m h1 h2 => hfail m (by omega) h2)]
      have hds : i < mr - 1 := by omega
      simp only [if_pos hds, List.range'_succ, List.map_cons]
      rfl

/-- The delays requested by a run of the loop from position `i` are
`d * 2 ^ i, d * 2 ^ (i+1), …`, one for each invocation except the last. -/
theorem retryAux_delays_shape (fn : Nat → Except E A) (mr d : Nat) :
    ∀ (t i : Nat) (le : Option E), mr - i ≤ t →
      (retryAux fn mr d i le).delays =
        (List.range' i ((retryAux fn mr d i le).calls - 1)).map
          fun j => d * 2 ^ j := by
  intro t
  induction t with
  | zero =>
      intro i le hle
      rw [retryAux_stop (by omega)]
      simp
  | succ t ih =>
      intro i le hle
      by_cases hi : i < mr
      · rcases hfn : fn i with a | e
        · rw [retryAux_err hi hfn]
          by_cases hds : i < mr - 1
          · have hrec := ih (i + 1) (some a) (by omega)
            have hpos : 1 ≤ (retryAux fn mr d (i + 1) (some a)).calls :=
              retryAux_calls_pos (by omega)
            simp only [if_pos hds, hrec]
            have hsucc : (retryAux fn mr d (i + 1) (some a)).calls - 1 + 1 =
                (retryAux fn mr d (i + 1) (some a)).calls := by omega
            simp only [Nat.add_sub_cancel]
            rw [← hsucc, List.range'_succ, List.map_cons]
            rfl
          · have hstop : ¬ i + 1 < mr := by omega
            rw [retryAux_stop hstop]
            simp [if_neg hds]
        · rw [retryAux_ok hi hfn]
          simp
      · rw [retryAux_stop hi]
        simp

/-- C4: for every `maxAttempts ≥ 1` and every operation: if the operation
first succeeds at attempt `k ≤ maxAttempts` (attempts numbered from 1),
`retryWithBackoff` invokes it exactly `k` times, returns that success, and
requested exactly the `k - 1` backoff delays that preceded the success; if
every attempt fails, it invokes the operation exactly `maxAttempts` times and
throws the failure of the last attempt, the intermediate failures being
discarded. -/
theorem retry_success_and_exhaustion (fn : Nat → Except E A) (mr d : Nat) :
    (∀ (k : Nat) (a : A), 1 ≤ k → k ≤ mr → fn (k - 1) = .ok a →
        (∀ m, m < k - 1 → ∃ e, fn m = .error e) →
        retryWithBackoff fn mr d =
          ⟨.ok a, k, (List.range (k - 1)).map fun j => d * 2 ^ j⟩)
    ∧ (∀ (e : Nat → E), 1 ≤ mr → (∀ m, m < mr → fn m = .error (e m)) →
        retryWithBackoff fn mr d =
          ⟨.error (some (e (mr - 1))), mr,
           (List.range (mr - 1)).map fun j => d * 2 ^ j⟩) := by
  constructor
  · intro k a hk1 hkmr hok hfail
    have h := retryAux_first_ok fn mr d (k - 1) 0 none a (by omega)
      (by simpa using hok) (fun m h1 h2 => hfail m (by omega))
    rw [retryWithBackoff, h, List.range_eq_range']
    congr 1
    omega
  · intro e hmr hfail
    have h := retryAux_all_err fn mr d e (mr - 1) 0 none (by omega)
      (fun m _ h2 => hfail m h2)
    rw [retryWithBackoff, h, List.range_eq_range']
    congr 1
    omega

/-- Witness for C4: an operation failing once then succeeding, run with
3 attempts, is invoked exactly twice and returns the success after a single
1000ms delay; an operation that always fails, run with 2 attempts, is invoked
exactly twice and the thrown failure is the second attempt's. -/
theorem retry_success_and_exhaustion_witness :
    retryWithBackoff (fun n => if n = 0 then Except.error ("e0") else Except.ok 7) 3 1000 =
      ⟨.ok 7, 2, [1000]⟩
    ∧ retryWithBackoff (fun n : Nat => (Except.error (toString n) : Except String Nat)) 2 1000 =
      ⟨.error (some ("1")), 2, [1000]⟩ := by
  constructor
  · have h := (retry_success_and_exhaustion
        (fun n => if n = 0 then Except.error ("e0") else Except.ok 7) 3 1000).1
        2 7 (by omega) (by omega) rfl
        (by
          intro m hm
          have : m = 0 := by omega
          subst this
          exact ⟨"e0", rfl⟩)
    rw [h]
    simp [List.range_succ]
  · have h := (retry_success_and_exhaustion
        (fun n : Nat => (Except.error (toString n) : Except String Nat)) 2 1000).2
        (fun n => toString n) (by omega) (fun m _ => rfl)
    rw [h]
    simp only [List.range_succ, List.range_zero]
    rfl

/-- C6: the sequence of delays requested by any run of `retryWithBackoff` is
exactly `d * 2 ^ 0, d * 2 ^ 1, …`, one for each invocation of the operation
except the last — so the delay before attempt `i + 1` is `d * 2 ^ i`, and no
delay is requested after the final attempt. -/
theorem retry_delay_schedule (fn : Nat → Except E A) (mr d : Nat) :
    (retryWithBackoff fn mr d).delays =
      (List.range ((retryWithBackoff fn mr d).calls - 1)).map
        fun j => d * 2 ^ j := by
  rw [retryWithBackoff, List.range_eq_range']
  exact retryAux_delays_shape fn mr d mr 0 none (by omega)

/-- C5: with `maxRetries = 0` the operation is never invoked and the loop
falls through to `throw lastError`; in `src/utils.ts` `lastError` is still
uninitialised (`undefined`, modelled `none`), so the thrown value is absent,
while the repository's other copy of the function (src/unnamed/part_002)
throws the generic `Error('All retry attempts failed')` that the repository's
own test expects. -/
theorem retry_zero_attempts (fn : Nat → Except E A)
    (g : Nat → Except String A) (d : Nat) :
    retryWithBackoff fn 0 d = ⟨.error none, 0, []⟩
    ∧ retryWithBackoffInit g 0 d =
        ⟨.error (some ("All retry attempts failed")), 0, []⟩ :=
  ⟨retryAux_stop (by omega), retryAux_stop (by omega)⟩

/-! ### Lemmas on the chunker -/

/-- Slicing `array.slice(i, i + s)` at non-negative indices is take-after-drop. -/
theorem jsSlice_nat (arr : List α) (j s : Nat) :
    jsSlice arr (j : Int) (((j + s : Nat) : Int)) = (arr.drop j).take s := by
  simp only [jsSlice]
  have h1 : ¬ ((j : Int) < 0) := by omega
  have h2 : ¬ (((j + s : Nat) : Int) < 0) := by omega
  rw [if_neg h1, if_neg h2]
  have e1 : (min ((j + s : Nat) : Int) ((arr.length : Nat) : Int)).toNat
      = min (j + s) arr.length := by omega
  have e2 : (min ((j : Nat) : Int) ((arr.length : Nat) : Int)).toNat
      = min j arr.length := by omega
  rw [e1, e2, List.drop_take]
  by_cases hj : j ≤ arr.length
  · have hmj : min j arr.length = j := by omega
    rw [hmj, List.take_eq_take]
    simp only [List.length_drop]
    omega
  · have hmj : min j arr.length = arr.length := by omega
    have hd : arr.drop j = [] := List.drop_of_length_le (by omega)
    rw [hmj, hd, List.drop_length]
    simp

/-- With `size ≤ 0` and a non-empty array, the loop of `chunkArray` never
leaves its guard: no amount of fuel reaches the exit. -/
theorem chunkLoopF_neg (arr : List α) (size : Int) (hs : size ≤ 0)
    (ha : arr ≠ []) :
    ∀ (fuel : Nat) (i : Int) (acc : List (List α)), i ≤ 0 →
      chunkLoopF arr size fuel i acc = none := by
  have hlen : 0 < arr.length := List.length_pos.mpr ha
  intro fuel
  induction fuel with
  | zero =>
      intro i acc hi
      rw [chunkLoopF]
      have hlt : i < (arr.length : Int) := by omega
      simp [hlt]
  | succ fuel ih =>
      intro i acc hi
      rw [chunkLoopF]
      have hlt : i < (arr.length : Int) := by omega
      simp only [if_pos hlt]
      exact ih (i + size) _ (by omega)

/-- With `1 ≤ size` and enough fuel, the loop of `chunkArray` computes
`chunksOf`. -/
theorem chunkLoopF_pos (arr : List α) (size : Int) (hs : 1 ≤ size) :
    ∀ (fuel j : Nat) (acc : List (List α)), arr.length - j ≤ fuel →
      chunkLoopF arr size fuel (j : Int) acc =
        some (acc ++ chunksOf size.toNat (arr.drop j)) := by
  intro fuel
  induction fuel with
  | zero =>
      intro j acc hf
      rw [chunkLoopF]
      have hj : arr.length ≤ j := by omega
      have hlt : ¬ ((j : Int) < (arr.length : Int)) := by omega
      rw [if_neg hlt, List.drop_of_length_le hj, chunksOf]
      simp
  | succ fuel ih =>
      intro j acc hf
      by_cases hj : j < arr.length
      · rw [chunkLoopF]
        have hlt : (j : Int) < (arr.length : Int) := by omega
        rw [if_pos hlt]
        have hsz : (j : Int) + size = ((j + size.toNat : Nat) : Int) := by omega
        rw [hsz, ih (j + size.toNat) _ (by omega), jsSlice_nat]
        congr 1
        conv_rhs => rw [chunksOf]
        have hne : (arr.drop j).isEmpty = false := by
          rw [List.isEmpty_eq_false, ne_eq, List.drop_eq_nil_iff]
          omega
        have hs0 : (size.toNat == 0) = false := by
          simp only [beq_eq_false_iff_ne, ne_eq]
          omega
        rw [hne, hs0]
        simp [List.drop_drop]
      · rw [chunkLoopF]
        have hlt : ¬ ((j : Int) < (arr.length : Int)) := by omega
        rw [if_neg hlt, List.drop_of_length_le (by omega), chunksOf]
        simp

/-- With `1 ≤ size`, `chunkArray arr size` terminates within `arr.length`
iterations and computes `chunksOf size.toNat arr`. -/
theorem chunkArrayF_pos_eq (arr : List α) (size : Int) (hs : 1 ≤ size) :
    chunkArrayF arr size arr.length = some (chunksOf size.toNat arr) := by
  have h := chunkLoopF_pos arr size hs arr.length 0 [] (by omega)
  simpa using h

/-- The chunks concatenate back to the original list. -/
theorem flatten_chunksOf (size : Nat) (hs : 1 ≤ size) (l : List α) :
    (chunksOf size l).flatten = l := by
  have key : ∀ (n : Nat) (l : List α), l.length = n →
      (chunksOf size l).flatten = l := by
    intro n
    induction n using Nat.strong_induction_on with
    | _ n ih =>
      intro l hn
      rw [chunksOf]
      by_cases hl : l = []
      · subst hl
        simp
      · have hc : (l.isEmpty || size == 0) = false := by
          simp only [Bool.or_eq_false_iff, List.isEmpty_eq_false,
            beq_eq_false_iff_ne, ne_eq]
          exact ⟨hl, by omega⟩
        rw [hc]
        simp only [Bool.false_eq_true, if_false, List.flatten_cons]
        have hlen : 0 < l.length := List.length_pos.mpr hl
        rw [ih (l.drop size).length (by simp [List.length_drop]; omega)
          (l.drop size) rfl]
        exact List.take_append_drop size l
  exact key l.length l rfl

/-- Every chunk has at most `size` elements. -/
theorem length_le_of_mem_chunksOf (size : Nat) (l : List α) :
    ∀ c ∈ chunksOf size l, c.length ≤ size := by
  have key : ∀ (n : Nat) (l : List α), l.length = n →
      ∀ c ∈ chunksOf size l, c.length ≤ size := by
    intro n
    induction n using Nat.strong_induction_on with
    | _ n ih =>
      intro l hn c hc
      rw [chunksOf] at hc
      by_cases hcond : (l.isEmpty || size == 0) = true
      · rw [hcond] at hc
        simp at hc
      · rw [Bool.not_eq_true] at hcond
        rw [hcond] at hc
        simp only [Bool.false_eq_true, if_false, List.mem_cons] at hc
        rcases hc with hc | hc
        · subst hc
          simp [List.length_take]
        · have hl : l ≠ [] := by
            intro h
            subst h
            simp at hcond
          have hlen : 0 < l.length := List.length_pos.mpr hl
          have hsz : size ≠ 0 := by
            intro h
            subst h
            simp at hcond
          exact ih (l.drop size).length (by simp [List.length_drop]; omega)
            (l.drop size) rfl c hc
  exact key l.length l rfl

/-- Function `chunksOf` produces no chunk for an empty list or zero size, and at least
one chunk otherwise. -/
theorem chunksOf_eq_nil_iff (size : Nat) (l : List α) :
    chunksOf size l = [] ↔ (l = [] ∨ size = 0) := by
  rw [chunksOf]
  by_cases hcond : (l.isEmpty || size == 0) = true
  · simp only [hcond, if_true, true_iff]
    simpa using hcond
  · rw [Bool.not_eq_true] at hcond
    simp only [hcond, Bool.false_eq_true, if_false]
    constructor
    · intro h
      exact absurd h (List.cons_ne_nil _ _)
    · intro h
      simp only [Bool.or_eq_false_iff, List.isEmpty_eq_false,
        beq_eq_false_iff_ne, ne_eq] at hcond
      rcases h with h | h
      · exact absurd h hcond.1
      · exact absurd h hcond.2

/-- Every chunk except possibly the last has exactly `size` elements. -/
theorem length_eq_of_mem_chunksOf_dropLast (size : Nat) (hs : 1 ≤ size)
    (l : List α) : ∀ c ∈ (chunksOf size l).dropLast, c.length = size := by
  have key : ∀ (n : Nat) (l : List α), l.length = n →
      ∀ c ∈ (chunksOf size l).dropLast, c.length = size := by
    intro n
    induction n using Nat.strong_induction_on with
    | _ n ih =>
      intro l hn c hc
      rw [chunksOf] at hc
      by_cases hcond : (l.isEmpty || size == 0) = true
      · rw [hcond] at hc
        simp at hc
      · rw [Bool.not_eq_true] at hcond
        rw [hcond] at hc
        simp only [Bool.false_eq_true, if_false] at hc
        have hl : l ≠ [] := by
          intro h
          subst h
          simp at hcond
        have hlen : 0 < l.length := List.length_pos.mpr hl
        by_cases hrest : chunksOf size (l.drop size) = []
        · rw [hrest] at hc
          simp at hc
        · rw [List.dropLast_cons_of_ne_nil hrest, List.mem_cons] at hc
          rcases hc with hc | hc
          · subst hc
            have : l.drop size ≠ [] ∧ size ≠ 0 := by
              have := (not_iff_not.mpr (chunksOf_eq_nil_iff size (l.drop size))).mp hrest
              push_neg at this
              exact this
            have hsl : size < l.length := by
              have := this.1
              rw [ne_eq, List.drop_eq_nil_iff] at this
              omega
            simp only [List.length_take]
            omega
          · exact ih (l.drop size).length (by simp [List.length_drop]; omega)
              (l.drop size) rfl c hc
  exact key l.length l rfl

/-- C10: `chunkArray` (exported in the public surface) terminates for every
array precisely under the precondition `size ≥ 1`: it then yields, within
`array.length` loop iterations, chunks of length at most `size` whose
concatenation is the input in order; but for `size ≤ 0` and a non-empty
array the loop guard never becomes false, so no fuel bound suffices — the
loop runs forever. -/
theorem chunkArray_termination (arr : List α) (size : Int) :
    (1 ≤ size →
      ∃ res, chunkArrayF arr size arr.length = some res
        ∧ res.flatten = arr ∧ ∀ c ∈ res, (c.length : Int) ≤ size)
    ∧ (size ≤ 0 → arr ≠ [] → ∀ fuel, chunkArrayF arr size fuel = none) := by
  constructor
  · intro hs
    refine ⟨chunksOf size.toNat arr, chunkArrayF_pos_eq arr size hs, ?_, ?_⟩
    · exact flatten_chunksOf size.toNat (by omega) arr
    · intro c hc
      have := length_le_of_mem_chunksOf size.toNat arr c hc
      omega
  · intro hs ha fuel
    exact chunkLoopF_neg arr size hs ha fuel 0 [] (by omega)

/-- Witness for C10: `chunkArray [1, 2, 3] 2` terminates with chunks of
length at most 2 concatenating to the input, while `chunkArray [1, 2, 3] (-1)`
exhausts any fuel. -/
theorem chunkArray_termination_witness :
    (∃ res, chunkArrayF [1, 2, 3] (2 : Int) 3 = some res
      ∧ res.flatten = [1, 2, 3] ∧ ∀ c ∈ res, (c.length : Int) ≤ 2)
    ∧ (∀ fuel, chunkArrayF [1, 2, 3] (-1 : Int) fuel = none) :=
  ⟨(chunkArray_termination [1, 2, 3] 2).1 (by omega),
   (chunkArray_termination [1, 2, 3] (-1)).2 (by omega) (by simp)⟩

/-! ### Lemmas on the client -/

/-- Helper: `sendBatchInternal` records exactly one submission, whatever the
transport outcome. -/
theorem sendBatchInternal_submissions (tr : List α → Except ε Unit)
    (s : ClientState α ε) (events : List α) :
    (sendBatchInternal tr s events).1.submissions = s.submissions ++ [events]
    ∧ (sendBatchInternal tr s events).1.eventBatch = s.eventBatch := by
  rcases htr : tr events with u | e <;> simp [sendBatchInternal, htr]

/-- A flush of a non-empty queue drains it and records exactly one
submission carrying the drained snapshot. -/
theorem flushBatch_nonempty (tr : List α → Except ε Unit)
    (s : ClientState α ε) (h : s.eventBatch ≠ []) :
    (flushBatch tr s).1.eventBatch = []
    ∧ (flushBatch tr s).1.submissions = s.submissions ++ [s.eventBatch] := by
  have hlen : s.eventBatch.length ≠ 0 := by
    simpa [List.length_eq_zero] using h
  rw [flushBatch, if_neg hlen]
  rcases htr : tr s.eventBatch with u | e <;>
    simp [drain, sendBatchInternal, htr]

/-- C2: every flush drains the queue atomically — the drained snapshot is
exactly the queued events, the live queue is empty before any network work
(i.e. in the state handed to `sendBatchInternal`), every queued event is in
the snapshot or the post-drain queue and never in both; and a flush of an
empty queue makes no submission and raises nothing. -/
theorem flush_drains_atomically (tr : List α → Except ε Unit)
    (s : ClientState α ε) :
    ((drain s).1 = s.eventBatch ∧ (drain s).2.eventBatch = [])
    ∧ (∀ a, (a ∈ s.eventBatch ↔ a ∈ (drain s).1 ∨ a ∈ (drain s).2.eventBatch)
        ∧ ¬ (a ∈ (drain s).1 ∧ a ∈ (drain s).2.eventBatch))
    ∧ (s.eventBatch = [] → flush tr s = (s, none))
    ∧ (s.eventBatch ≠ [] →
        (flush tr s).1.eventBatch = []
        ∧ (flush tr s).1.submissions = s.submissions ++ [s.eventBatch]) := by
  refine ⟨⟨rfl, rfl⟩, ?_, ?_, ?_⟩
  · intro a
    simp [drain]
  · intro h
    simp [flush, h]
  · intro h
    have hlen : 0 < s.eventBatch.length := List.length_pos.mpr h
    rw [flush, if_pos hlen]
    exact flushBatch_nonempty tr s h
/-- Witness for C2: a flush of the empty queue is an identity with no
submission; a flush of queue `[5]` empties it and submits `[5]`. -/
theorem flush_drains_atomically_witness :
    flush (fun _ : List Nat => (Except.ok () : Except String Unit))
        (⟨[], true, [], []⟩ : ClientState Nat String)
      = (⟨[], true, [], []⟩, none)
    ∧ (flush (fun _ : List Nat => (Except.ok () : Except String Unit))
        (⟨[5], true, [], []⟩ : ClientState Nat String)).1.eventBatch = []
    ∧ (flush (fun _ : List Nat => (Except.ok () : Except String Unit))
        (⟨[5], true, [], []⟩ : ClientState Nat String)).1.submissions
      = [[5]] := by
  refine ⟨(flush_drains_atomically _ _).2.2.1 rfl, ?_, ?_⟩
  · exact ((flush_drains_atomically _ _).2.2.2 (by simp)).1
  · have h := ((flush_drains_atomically
      (fun _ : List Nat => (Except.ok () : Except String Unit))
      (⟨[5], true, [], []⟩ : ClientState Nat String)).2.2.2 (by simp)).2
    simpa using h

theorem sendAll_nil (cfg : ClientConfig) (tr : List α → Except ε Unit)
    (s : ClientState α ε) : sendAll cfg tr s [] = s := rfl

theorem sendAll_cons (cfg : ClientConfig) (tr : List α → Except ε Unit)
    (s : ClientState α ε) (e : α) (es : List α) :
    sendAll cfg tr s (e :: es)
      = sendAll cfg tr (queueOrSendEvent cfg tr s e).1 es := rfl

/-- With batching on and the threshold not yet reached, `send` only
enqueues. -/
theorem queueOrSendEvent_enqueue (cfg : ClientConfig)
    (tr : List α → Except ε Unit) (s : ClientState α ε) (e : α)
    (hb : cfg.enableBatching = true)
    (hlt : s.eventBatch.length + 1 < cfg.batchSize) :
    queueOrSendEvent cfg tr s e
      = ({ s with eventBatch := s.eventBatch ++ [e] }, none) := by
  rw [queueOrSendEvent]
  simp only [hb, Bool.not_true, Bool.false_eq_true, if_false]
  rw [if_neg]
  simp only [List.length_append, List.length_cons, List.length_nil]
  omega

/-- With batching on and the threshold reached by this enqueue, `send`
flushes. -/
theorem queueOrSendEvent_flush (cfg : ClientConfig)
    (tr : List α → Except ε Unit) (s : ClientState α ε) (e : α)
    (hb : cfg.enableBatching = true)
    (hge : cfg.batchSize ≤ s.eventBatch.length + 1) :
    queueOrSendEvent cfg tr s e
      = flushBatch tr { s with eventBatch := s.eventBatch ++ [e] } := by
  rw [queueOrSendEvent]
  simp only [hb, Bool.not_true, Bool.false_eq_true, if_false]
  rw [if_pos]
  simp only [List.length_append, List.length_cons, List.length_nil]
  omega

/-- Enqueuing a sequence that exactly tops the queue up to `batchSize`
produces a single flush of the whole accumulated batch. -/
theorem sendAll_fill (cfg : ClientConfig) (tr : List α → Except ε Unit)
    (hb : cfg.enableBatching = true) :
    ∀ (events : List α) (s : ClientState α ε), events ≠ [] →
      s.eventBatch.length + events.length = cfg.batchSize →
      (sendAll cfg tr s events).eventBatch = []
      ∧ (sendAll cfg tr s events).submissions
          = s.submissions ++ [s.eventBatch ++ events] := by
  intro events
  induction events with
  | nil =>
      intro s h _
      exact absurd rfl h
  | cons e rest ih =>
      intro s _ hlen
      rw [sendAll_cons]
      cases rest with
      | nil =>
          rw [queueOrSendEvent_flush cfg tr s e hb (by simp at hlen; omega)]
          rw [sendAll_nil]
          have h := flushBatch_nonempty tr
            { s with eventBatch := s.eventBatch ++ [e] } (by simp)
          exact ⟨h.1, h.2⟩
      | cons e2 rest2 =>
          rw [queueOrSendEvent_enqueue cfg tr s e hb (by simp at hlen ⊢; omega)]
          have h := ih { s with eventBatch := s.eventBatch ++ [e] }
            (List.cons_ne_nil _ _) (by simp at hlen ⊢; omega)
          refine ⟨h.1, ?_⟩
          rw [h.2]
          simp

/-- C1: with batching enabled and the queue initially empty, a sequence of
exactly `batchSize ≥ 1` sequential `send` calls makes exactly one Transport
submission carrying all the events in FIFO order, and the queue is empty
immediately after that submission is initiated, for every transport
outcome. -/
theorem batch_fill_single_submission (cfg : ClientConfig)
    (tr : List α → Except ε Unit) (s : ClientState α ε) (events : List α)
    (hb : cfg.enableBatching = true) (hbs : 1 ≤ cfg.batchSize)
    (hq : s.eventBatch = []) (hlen : events.length = cfg.batchSize) :
    (sendAll cfg tr s events).submissions = s.submissions ++ [events]
    ∧ (sendAll cfg tr s events).eventBatch = [] := by
  have hne : events ≠ [] := by
    intro h
    subst h
    simp at hlen
    omega
  have h := sendAll_fill cfg tr hb events s hne (by rw [hq]; simpa using hlen)
  rw [hq] at h
  exact ⟨by simpa using h.2, h.1⟩
/-- Witness for C1: `batchSize = 3`, three `send` calls from an empty queue
yield the single submission `[[10, 11, 12]]` and an empty queue. -/
theorem batch_fill_single_submission_witness :
    (sendAll ⟨"sk_test", "https://api.example", false, 3, 5000, true, 3, 1000⟩
        (fun _ : List Nat => (Except.ok () : Except String Unit))
        ⟨[], true, [], []⟩ [10, 11, 12]).submissions = [[10, 11, 12]]
    ∧ (sendAll ⟨"sk_test", "https://api.example", false, 3, 5000, true, 3, 1000⟩
        (fun _ : List Nat => (Except.ok () : Except String Unit))
        ⟨[], true, [], []⟩ [10, 11, 12]).eventBatch = [] := by
  have h := batch_fill_single_submission
    ⟨"sk_test", "https://api.example", false, 3, 5000, true, 3, 1000⟩
    (fun _ : List Nat => (Except.ok () : Except String Unit))
    ⟨[], true, [], []⟩ [10, 11, 12] rfl (by decide) rfl rfl
  exact ⟨by simpa using h.1, h.2⟩

/-- The chunk loop of `sendBatch` run with a transport that accepts every
chunk submits every chunk in order. -/
theorem sendChunks_ok (tr : List α → Except ε Unit)
    (hok : ∀ l, tr l = .ok ()) :
    ∀ (cs : List (List α)) (s : ClientState α ε),
      sendChunks tr s cs
        = ({ s with submissions := s.submissions ++ cs }, none) := by
  intro cs
  induction cs with
  | nil =>
      intro s
      simp [sendChunks]
  | cons c cs ih =>
      intro s
      rw [sendChunks]
      simp only [sendBatchInternal, hok c]
      rw [ih]
      simp

/-- C3: `sendBatch []` makes no submission and raises nothing; `sendBatch`
with 1 to 1000 events makes exactly one submission of the whole list; with
more than 1000 events (and a transport that accepts each chunk) it submits
exactly the chunks of `chunkArray(events, 1000)` sequentially in order —
each of length at most 1000, every non-final chunk of length exactly 1000,
and their concatenation is the input without reordering. -/
theorem sendBatch_partitions (tr : List α → Except ε Unit)
    (s : ClientState α ε) :
    (∀ events : List α, events = [] → sendBatch tr s events = (s, none))
    ∧ (∀ events : List α, 1 ≤ events.length → events.length ≤ 1000 →
        (sendBatch tr s events).1.submissions = s.submissions ++ [events])
    ∧ (∀ events : List α, 1000 < events.length → (∀ l, tr l = .ok ()) →
        (sendBatch tr s events).1.submissions
          = s.submissions ++ chunksOf 1000 events
        ∧ (chunksOf 1000 events).flatten = events
        ∧ (∀ c ∈ chunksOf 1000 events, c.length ≤ 1000)
        ∧ (∀ c ∈ (chunksOf 1000 events).dropLast, c.length = 1000)) := by
  refine ⟨?_, ?_, ?_⟩
  · intro events h
    subst h
    rfl
  · intro events h1 h2
    rw [sendBatch, if_neg (by omega), if_neg (by omega)]
    exact (sendBatchInternal_submissions tr s events).1
  · intro events hgt hok
    rw [sendBatch, if_neg (by omega), if_pos hgt]
    rw [sendChunks_ok tr hok]
    exact ⟨rfl, flatten_chunksOf 1000 (by omega) events,
      length_le_of_mem_chunksOf 1000 events,
      length_eq_of_mem_chunksOf_dropLast 1000 (by omega) events⟩
/-- Witness for C3: the empty batch is a no-op; one event yields one
submission; 1500 identical events yield exactly the two submissions of
lengths 1000 and 500, in that order. -/
theorem sendBatch_partitions_witness :
    sendBatch (fun _ : List Nat => (Except.ok () : Except String Unit))
        (⟨[], true, [], []⟩ : ClientState Nat String) []
      = (⟨[], true, [], []⟩, none)
    ∧ (sendBatch (fun _ : List Nat => (Except.ok () : Except String Unit))
        (⟨[], true, [], []⟩ : ClientState Nat String) [7]).1.submissions
      = [[7]]
    ∧ (sendBatch (fun _ : List Nat => (Except.ok () : Except String Unit))
        (⟨[], true, [], []⟩ : ClientState Nat String)
        (List.replicate 1500 0)).1.submissions
      = [List.replicate 1000 0, List.replicate 500 0] := by
  have hchunks : chunksOf 1000 (List.replicate 1500 (0 : Nat))
      = [List.replicate 1000 0, List.replicate 500 0] := by
    have hsplit : List.replicate 1500 (0 : Nat)
        = List.replicate 1000 0 ++ List.replicate 500 0 := by
      rw [← List.replicate_add]
    rw [chunksOf]
    have hc : ((List.replicate 1500 (0 : Nat)).isEmpty || (1000 == 0))
        = false := by
      simp only [Bool.or_eq_false_iff, List.isEmpty_eq_false, ne_eq,
        List.replicate_eq_nil_iff, beq_eq_false_iff_ne]
      omega
    rw [hc]
    simp only [Bool.false_eq_true, if_false]
    rw [hsplit, List.take_left' (List.length_replicate 1000 0),
      List.drop_left' (List.length_replicate 1000 0)]
    rw [chunksOf]
    have hc2 : ((List.replicate 500 (0 : Nat)).isEmpty || (1000 == 0))
        = false := by
      simp only [Bool.or_eq_false_iff, List.isEmpty_eq_false, ne_eq,
        List.replicate_eq_nil_iff, beq_eq_false_iff_ne]
      omega
    rw [hc2]
    simp only [Bool.false_eq_true, if_false]
    rw [List.take_of_length_le (by rw [List.length_replicate]; omega),
      List.drop_of_length_le (by rw [List.length_replicate]; omega)]
    rw [chunksOf]
    rfl
  refine ⟨(sendBatch_partitions _ _).1 [] rfl, ?_, ?_⟩
  · have h := (sendBatch_partitions
      (fun _ : List Nat => (Except.ok () : Except String Unit))
      (⟨[], true, [], []⟩ : ClientState Nat String)).2.1 [7]
      (by simp) (by simp)
    simpa using h
  · have h := ((sendBatch_partitions
      (fun _ : List Nat => (Except.ok () : Except String Unit))
      (⟨[], true, [], []⟩ : ClientState Nat String)).2.2
      (List.replicate 1500 0) (by rw [List.length_replicate]; omega)
      (fun l => rfl)).1
    rw [h, hchunks]
    exact List.nil_append _

/-! ### Transport attempt and payload theorems -/

theorem responseOk_iff (status : Nat) :
    responseOk status = true ↔ (200 ≤ status ∧ status ≤ 299) := by
  simp [responseOk]

/-- C7 counterexample: a 2xx response whose body carries the present-but-empty
message `""` does not surface a failure whose message equals the body's
message — JavaScript `result.message || "Failed to send events"` treats the
empty string as falsy and substitutes the generic message. -/
theorem sendAttempt_empty_message_counterexample :
    sendAttempt ⟨200, "", ⟨false, some ("")⟩⟩ = .error ("Failed to send events")
    ∧ sendAttempt ⟨200, "", ⟨false, some ("")⟩⟩ ≠ .error ("") := by
  refine ⟨rfl, ?_⟩
  intro h
  rw [show sendAttempt ⟨200, "", ⟨false, some ("")⟩⟩
    = Except.error ("Failed to send events") from rfl] at h
  exact absurd (Except.error.inj h) (by decide)

/-- C7 (amended): a single transport attempt fails exactly when the response
is unsuccessful; a non-2xx status yields a failure whose message contains the
status code and the body text; a 2xx response with `success` false yields a
failure whose message is the body's message when that is present and
non-empty, and the generic `"Failed to send events"` when it is absent or
empty; a 2xx response with `success` true is not a failure. -/
theorem sendAttempt_outcomes (r : HttpResponse) :
    (sendAttempt r = .ok ()
      ↔ (200 ≤ r.status ∧ r.status ≤ 299 ∧ r.json.success = true))
    ∧ (¬ (200 ≤ r.status ∧ r.status ≤ 299) →
        ∃ msg, sendAttempt r = .error msg
          ∧ (∃ a b, msg = a ++ toString r.status ++ b)
          ∧ (∃ c d, msg = c ++ r.bodyText ++ d))
    ∧ (200 ≤ r.status ∧ r.status ≤ 299 → r.json.success = false →
        (∀ m, r.json.message = some m → m ≠ "" → sendAttempt r = .error m)
        ∧ ((r.json.message = none ∨ r.json.message = some ("")) →
            sendAttempt r = .error ("Failed to send events"))) := by
  refine ⟨?_, ?_, ?_⟩
  · constructor
    · intro h
      by_cases hok : responseOk r.status = true
      · by_cases hsucc : r.json.success = true
        · exact ⟨((responseOk_iff r.status).mp hok).1,
            ((responseOk_iff r.status).mp hok).2, hsucc⟩
        · rw [sendAttempt, if_neg (by simp [hok]),
            if_pos (by simp [Bool.not_eq_true] at hsucc; simp [hsucc])] at h
          exact absurd h (by simp)
      · rw [sendAttempt, if_pos (by simp [Bool.not_eq_true] at hok; simp [hok])] at h
        exact absurd h (by simp)
    · rintro ⟨h1, h2, h3⟩
      have hok : responseOk r.status = true := (responseOk_iff r.status).mpr ⟨h1, h2⟩
      rw [sendAttempt, if_neg (by simp [hok]), if_neg (by simp [h3])]
  · intro hne
    have hok : responseOk r.status = false := by
      rw [← Bool.not_eq_true, responseOk_iff]
      exact hne
    refine ⟨"HTTP " ++ toString r.status ++ ": " ++ r.bodyText, ?_, ?_, ?_⟩
    · rw [sendAttempt, if_pos (by simp [hok])]
    · exact ⟨"HTTP ", ": " ++ r.bodyText, by
        simp [String.append_assoc]⟩
    · exact ⟨"HTTP " ++ toString r.status ++ ": ", "", by
        simp [String.append_assoc]⟩
  · rintro ⟨h1, h2⟩ h3
    have hok : responseOk r.status = true := (responseOk_iff r.status).mpr ⟨h1, h2⟩
    constructor
    · intro m hm hme
      rw [sendAttempt, if_neg (by simp [hok]), if_pos (by simp [h3])]
      rw [hm]
      simp [jsOrString, hme]
    · intro hm
      rw [sendAttempt, if_neg (by simp [hok]), if_pos (by simp [h3])]
      rcases hm with hm | hm <;> rw [hm] <;> simp [jsOrString]
/-- Witness for C7 (amended): a 400 response with body `"Bad Request"` fails
with a message containing `"400"` and `"Bad Request"`; a 200 response with
`success` false and message `"Invalid event"` fails with exactly that
message; a 204 success is not a failure. -/
theorem sendAttempt_outcomes_witness :
    (∃ msg, sendAttempt ⟨400, "Bad Request", ⟨true, none⟩⟩ = .error msg
      ∧ (∃ a b, msg = a ++ toString 400 ++ b)
      ∧ (∃ c d, msg = c ++ "Bad Request" ++ d))
    ∧ sendAttempt ⟨200, "ok", ⟨false, some ("Invalid event")⟩⟩
        = .error ("Invalid event")
    ∧ sendAttempt ⟨204, "", ⟨true, none⟩⟩ = .ok () := by
  refine ⟨(sendAttempt_outcomes ⟨400, "Bad Request", ⟨true, none⟩⟩).2.1
      (by decide), ?_, ?_⟩
  · exact ((sendAttempt_outcomes ⟨200, "ok", ⟨false, some ("Invalid event")⟩⟩).2.2
      ⟨by decide, by decide⟩ rfl).1 "Invalid event" rfl (by decide)
  · exact (sendAttempt_outcomes ⟨204, "", ⟨true, none⟩⟩).1.mpr
      ⟨by decide, by decide, rfl⟩

/-- C8: for every non-empty batch handed to the transport, the wire payload
is the single event itself (a JSON object) when the batch has exactly one
event, and the JSON array of the events when it has more than one — never a
one-element array. -/
theorem payload_shape (events : List α) (h : events ≠ []) :
    (∀ e, events = [e] → payloadOf events = .single e)
    ∧ (1 < events.length → payloadOf events = .array events)
    ∧ (∀ e, payloadOf events ≠ .array [e]) := by
  refine ⟨?_, ?_, ?_⟩
  · intro e he
    subst he
    rfl
  · intro hlen
    cases events with
    | nil => exact absurd rfl h
    | cons a t =>
        cases t with
        | nil => simp at hlen
        | cons b t2 => rfl
  · intro e he
    cases events with
    | nil => exact h rfl
    | cons a t =>
        cases t with
        | nil =>
            rw [show payloadOf [a] = Payload.single a from rfl] at he
            exact Payload.noConfusion he
        | cons b t2 =>
            rw [show payloadOf (a :: b :: t2) = Payload.array (a :: b :: t2)
              from rfl] at he
            have := Payload.array.inj he
            simp at this
/-- Witness for C8: one event is serialized as the bare event, two events as
the array. -/
theorem payload_shape_witness :
    payloadOf [7] = Payload.single 7
    ∧ payloadOf [7, 8] = Payload.array [7, 8] :=
  ⟨(payload_shape [7] (by simp)).1 7 rfl,
   (payload_shape [7, 8] (by simp)).2.1 (by simp)⟩

/-! ### `destroy` theorems -/

theorem destroy_empty_queue (tr : List α → Except ε Unit) (t : Bool)
    (subs : List (List α)) (logs : List ε) :
    destroy tr (⟨[], t, subs, logs⟩ : ClientState α ε)
      = (⟨[], false, subs, logs⟩, none) := by
  cases t <;> rfl

theorem destroy_nonempty_queue (tr : List α → Except ε Unit) (q : List α)
    (t : Bool) (subs : List (List α)) (logs : List ε) (hq : q ≠ []) :
    destroy tr (⟨q, t, subs, logs⟩ : ClientState α ε)
      = match tr q with
        | .ok _ => (⟨[], false, subs ++ [q], logs⟩, none)
        | .error e => (⟨[], false, subs ++ [q], logs ++ [e, e]⟩, none) := by
  have hlen : 0 < q.length := List.length_pos.mpr hq
  have hlen0 : ¬ q.length = 0 := by omega
  cases t <;> rcases htr : tr q with u | e <;>
    simp [destroy, flush, flushBatch, drain, sendBatchInternal, htr,
      hlen, hlen0]

/-- C9: `destroy` cancels the flush timer (idempotently — safe when no timer
is active, and a second `destroy` changes nothing), triggers one final flush
of the queue, and never raises: its error component is `none` for every
queue state and every transport outcome, any failure of the final flush
being caught and logged. -/
theorem destroy_cancels_and_flushes (tr : List α → Except ε Unit)
    (s : ClientState α ε) :
    (destroy tr s).2 = none
    ∧ (destroy tr s).1.flushTimer = false
    ∧ destroy tr (destroy tr s).1 = ((destroy tr s).1, none)
    ∧ (s.eventBatch = [] → (destroy tr s).1.submissions = s.submissions)
    ∧ (s.eventBatch ≠ [] →
        (destroy tr s).1.submissions = s.submissions ++ [s.eventBatch])
    ∧ (∀ e, s.eventBatch ≠ [] → tr s.eventBatch = .error e →
        e ∈ (destroy tr s).1.loggedErrors) := by
  rcases s with ⟨q, t, subs, logs⟩
  by_cases hq : q = []
  · subst hq
    rw [destroy_empty_queue]
    refine ⟨rfl, rfl, ?_, fun _ => rfl, fun h => absurd rfl h,
      fun e h _ => absurd rfl h⟩
    rw [destroy_empty_queue]
  · rw [destroy_nonempty_queue tr q t subs logs hq]
    cases htr : tr q with
    | ok u =>
        refine ⟨rfl, rfl, ?_, fun h => absurd h hq, fun _ => rfl, ?_⟩
        · exact destroy_empty_queue tr false (subs ++ [q]) logs
        · intro e2 _ htr2
          exact absurd htr2 (by simp)
    | error e =>
        refine ⟨rfl, rfl, ?_, fun h => absurd h hq, fun _ => rfl, ?_⟩
        · exact destroy_empty_queue tr false (subs ++ [q]) (logs ++ [e, e])
        · intro e2 _ htr2
          have he : e = e2 := Except.error.inj htr2
          subst he
          simp
/-- Witness for C9: destroying a client with queue `[5]` and a transport
that rejects resolves with no error, and the rejection is logged. -/
theorem destroy_cancels_and_flushes_witness :
    (destroy (fun _ : List Nat => (Except.error ("boom") : Except String Unit))
        (⟨[5], true, [], []⟩ : ClientState Nat String)).2 = none
    ∧ "boom" ∈ (destroy
        (fun _ : List Nat => (Except.error ("boom") : Except String Unit))
        (⟨[5], true, [], []⟩ : ClientState Nat String)).1.loggedErrors := by
  have h := destroy_cancels_and_flushes
    (fun _ : List Nat => (Except.error ("boom") : Except String Unit))
    (⟨[5], true, [], []⟩ : ClientState Nat String)
  exact ⟨h.1, h.2.2.2.2.2 "boom" (by simp) rfl⟩

end Yorin
